import Mathlib

/-!
Verification of the fuzzy-logic paddle controller (`FuzzyPlayer` in `Pong.py`).

The embedding fixes the construction geometry to the values of the program's
entry point (`PongGame(800, 400, ...)` with the default `Racket`):
board width `W = 800`, board height `H = 400`, paddle width `PW = 80`.
The paddle max speed `VMAX` is kept as a parameter `V` throughout.

Python floats are modelled as exact rationals.  For this geometry every
membership-function breakpoint lies on the integer sample grid
(`np.linspace(-400, 400, 801)` resp. `np.linspace(0, 400, 401)`), so
`skfuzzy.interp_membership` of the sampled arrays coincides with the exact
piecewise-linear trapezoid on the universe, and returns `0` outside of it
(`np.interp` with `left = right = 0`); the functions below compute exactly
that value everywhere.
-/

/-- Exact value of `skfuzzy.trapmf(x, [a, b, c, d])`:
`0` left of `a`, linear ramp on `[a, b]`, `1` on `[b, c]`, linear ramp down on
`[c, d]`, `0` right of `d`.  At a degenerate vertical edge (`a = b` or
`c = d`) the value at the shared point is `1`, as in `skfuzzy`. -/
def trapmf (a b c d x : ℚ) : ℚ :=
  if x < a then 0
  else if x < b then (x - a) / (b - a)
  else if x ≤ c then 1
  else if x ≤ d then (d - x) / (d - c)
  else 0

/-- `skfuzzy.trimf(x, [a, b, c])` is the degenerate trapezoid with `b = c`. -/
def trimf (a b c x : ℚ) : ℚ :=
  trapmf a b b c x

-- Horizontal memberships (`self.x_mf`): universe `[-400, 400]`, `span = 400`.
-- Breakpoints are `±0.035, ±0.05, ±0.09, ±0.14, ±0.18, ±0.22` times `span`.

/-- `x_mf["far_right"] = trapmf [-span, -span, -0.22 span, -0.14 span]`. -/
def x_far_right (x : ℚ) : ℚ := trapmf (-400) (-400) (-88) (-56) x

/-- `x_mf["right"] = trimf [-0.18 span, -0.09 span, -0.035 span]`. -/
def x_right (x : ℚ) : ℚ := trimf (-72) (-36) (-14) x

/-- `x_mf["center"] = trimf [-0.05 span, 0, 0.05 span]`. -/
def x_center (x : ℚ) : ℚ := trimf (-20) 0 20 x

/-- `x_mf["left"] = trimf [0.035 span, 0.09 span, 0.18 span]`. -/
def x_left (x : ℚ) : ℚ := trimf 14 36 72 x

/-- `x_mf["far_left"] = trapmf [0.14 span, 0.22 span, span, span]`. -/
def x_far_left (x : ℚ) : ℚ := trapmf 56 88 400 400 x

-- Vertical memberships (`self.y_mf`): universe `[0, 400]`, `H = 400`.

/-- `y_mf["near"] = trapmf [0, 0, 0.30 H, 0.55 H]`. -/
def y_near (y : ℚ) : ℚ := trapmf 0 0 120 220 y

/-- `y_mf["mid"] = trimf [0.48 H, 0.68 H, 0.85 H]`. -/
def y_mid (y : ℚ) : ℚ := trimf 192 272 340 y

/-- `y_mf["far"] = trapmf [0.78 H, 0.92 H, H, H]`. -/
def y_far (y : ℚ) : ℚ := trapmf 312 368 400 400 y

/-- Sum of the five horizontal membership degrees at a point. -/
def x_mf_sum (x : ℚ) : ℚ :=
  x_far_right x + x_right x + x_center x + x_left x + x_far_left x

/-- `np.copysign(a, s)`: magnitude of `a` with the sign of `s`
(`+0.0` counts as positive, which is the only case reachable here since the
rational `0` has positive float sign bit). -/
def copysign (a s : ℚ) : ℚ :=
  if s < 0 then -|a| else |a|

/-- `FuzzyPlayer._edge_shift`: weighted blend of the vertical memberships,
scaled by a quarter of the paddle width (`0.25 * 80 = 20`), carrying the
sign of the raw horizontal offset. -/
def edge_shift (y_abs x_val : ℚ) : ℚ :=
  copysign ((9/10 * y_near y_abs + 2/5 * y_mid y_abs + 1/20 * y_far y_abs) * (1/4 * 80)) x_val

-- Constants of `FuzzyPlayer.__init__`.

/-- `self.dead_x = 1.2`. -/
def dead_x : ℚ := 6/5

/-- `self.cutoff_v = 0.10`. -/
def cutoff_v : ℚ := 1/10

/-- `self._boost_gain = 1.10`. -/
def boost_gain : ℚ := 11/10

/-- The rule base of `_tsk_velocity`, in source order: pairs of activation
weight and (constant) consequent value. -/
def rule_list (V xe y_abs : ℚ) : List (ℚ × ℚ) :=
  [(x_far_left xe, -V),
   (x_far_right xe, V),
   (min (x_left xe) (y_near y_abs), -V),
   (min (x_right xe) (y_near y_abs), V),
   (min (x_left xe) (y_mid y_abs), -(9/10 * V)),
   (min (x_right xe) (y_mid y_abs), 9/10 * V),
   (min (x_left xe) (y_far y_abs), -(7/10 * V)),
   (min (x_right xe) (y_far y_abs), 7/10 * V),
   (x_center xe, 0)]

/-- One iteration of the aggregation loop: skip rules with weight `≤ 0`,
otherwise accumulate `num += w * z` and `den += w`. -/
def ruleStep (acc r : ℚ × ℚ) : ℚ × ℚ :=
  if r.1 ≤ 0 then acc else (acc.1 + r.1 * r.2, acc.2 + r.1)

/-- The inference core of `_tsk_velocity` applied to an already corrected
horizontal value `xe`: weighted-average aggregation guarded against a
near-zero weight sum, followed by the small-velocity cutoff. -/
def tsk_core (V xe y_abs : ℚ) : ℚ :=
  let s := (rule_list V xe y_abs).foldl ruleStep (0, 0)
  let v := if s.2 ≤ 1/1000000000 then 0 else s.1 / s.2
  if |v| < cutoff_v then 0 else v

/-- `FuzzyPlayer._tsk_velocity`: correct the horizontal offset by the edge
shift, then run the inference core. -/
def tsk_velocity (V x_val y_abs : ℚ) : ℚ :=
  tsk_core V (x_val - edge_shift y_abs x_val) y_abs

/-- The aggregation value of `_tsk_velocity` before the small-velocity
cutoff (lines building `num`, `den` and `v`). -/
def aggregateV (V x_val y_abs : ℚ) : ℚ :=
  let s := (rule_list V (x_val - edge_shift y_abs x_val) y_abs).foldl ruleStep (0, 0)
  if s.2 ≤ 1/1000000000 then 0 else s.1 / s.2

/-- `FuzzyPlayer.act`: dead-zone suppression, inference, approach boost with
clamp, and the updated previous-`|dy|` state.  Returns the velocity together
with the new state. -/
def act (V : ℚ) (prev : Option ℚ) (x_diff y_diff : ℚ) : ℚ × Option ℚ :=
  let y_abs := |y_diff|
  let v0 := if |x_diff| < dead_x then 0 else tsk_velocity V x_diff y_abs
  let v :=
    match prev with
    | none => v0
    | some p =>
      if v0 ≠ 0 ∧ dead_x ≤ |x_diff| ∧ y_abs < p - 1/1000
      then max (-V) (min V (v0 * boost_gain))
      else v0
  (v, some y_abs)

/-- The move command issued at the end of `act`:
`self.move(self.racket.rect.x + v)`. -/
def move_target (px v : ℚ) : ℚ := px + v

/-- A whole run of the controller from its freshly constructed state
(`_prev_y_abs = None`) over a list of `(x_diff, y_diff)` inputs, collecting
the velocity outputs. -/
def runController (V : ℚ) (inputs : List (ℚ × ℚ)) : List ℚ :=
  (inputs.foldl
    (fun (acc : List ℚ × Option ℚ) inp =>
      let r := act V acc.2 inp.1 inp.2
      (acc.1 ++ [r.1], r.2))
    ([], none)).1

-- General facts about the trapezoid evaluator.

theorem trapmf_nonneg (a b c d x : ℚ) : 0 ≤ trapmf a b c d x := by
  unfold trapmf
  split_ifs with h1 h2 h3 h4
  · exact le_refl 0
  · apply div_nonneg <;> linarith
  · exact zero_le_one
  · apply div_nonneg <;> linarith
  · exact le_refl 0

theorem trapmf_le_one (a b c d x : ℚ) : trapmf a b c d x ≤ 1 := by
  unfold trapmf
  split_ifs with h1 h2 h3 h4
  · exact zero_le_one
  · rw [div_le_one (by linarith)]; linarith
  · exact le_refl 1
  · rw [div_le_one (by linarith)]; linarith
  · exact zero_le_one

theorem trapmf_zero_left (a b c d x : ℚ) (hab : a < b) (hx : x ≤ a) :
    trapmf a b c d x = 0 := by
  unfold trapmf
  split_ifs with h1 h2 h3 h4
  · rfl
  · have hxa : x = a := le_antisymm hx (not_lt.mp h1)
    rw [hxa, sub_self, zero_div]
  · linarith
  · linarith
  · rfl

theorem trapmf_zero_right (a b c d x : ℚ) (hac : a ≤ c) (hbc : b ≤ c) (hcd : c < d)
    (hx : d ≤ x) : trapmf a b c d x = 0 := by
  unfold trapmf
  split_ifs with h1 h2 h3 h4
  · linarith
  · linarith
  · linarith
  · have hxd : x = d := le_antisymm h4 hx
    rw [hxd, sub_self, zero_div]
  · rfl

/-- Mirror symmetry: reflecting the breakpoints about `0` reflects the
function. -/
theorem trapmf_neg (a b c d x : ℚ) (hab : a ≤ b) (hbc : b ≤ c) (hcd : c ≤ d) :
    trapmf (-d) (-c) (-b) (-a) x = trapmf a b c d (-x) := by
  unfold trapmf
  split_ifs <;> first
    | rfl
    | linarith
    | ring

-- Nonnegativity and boundedness of the concrete membership functions.

theorem x_far_right_nonneg (x : ℚ) : 0 ≤ x_far_right x := trapmf_nonneg _ _ _ _ _
theorem x_right_nonneg (x : ℚ) : 0 ≤ x_right x := trapmf_nonneg _ _ _ _ _
theorem x_center_nonneg (x : ℚ) : 0 ≤ x_center x := trapmf_nonneg _ _ _ _ _
theorem x_left_nonneg (x : ℚ) : 0 ≤ x_left x := trapmf_nonneg _ _ _ _ _
theorem x_far_left_nonneg (x : ℚ) : 0 ≤ x_far_left x := trapmf_nonneg _ _ _ _ _
theorem y_near_nonneg (y : ℚ) : 0 ≤ y_near y := trapmf_nonneg _ _ _ _ _
theorem y_mid_nonneg (y : ℚ) : 0 ≤ y_mid y := trapmf_nonneg _ _ _ _ _
theorem y_far_nonneg (y : ℚ) : 0 ≤ y_far y := trapmf_nonneg _ _ _ _ _

-- Mirror symmetry of the horizontal labels about 0.

theorem x_far_left_neg (x : ℚ) : x_far_left (-x) = x_far_right x := by
  have h := trapmf_neg 56 88 400 400 x (by norm_num) (by norm_num) (by norm_num)
  unfold x_far_left x_far_right
  exact h.symm

theorem x_far_right_neg (x : ℚ) : x_far_right (-x) = x_far_left x := by
  have h := x_far_left_neg (-x)
  rw [neg_neg] at h
  exact h.symm

theorem x_left_neg (x : ℚ) : x_left (-x) = x_right x := by
  have h := trapmf_neg 14 36 36 72 x (by norm_num) (by norm_num) (by norm_num)
  unfold x_left x_right trimf
  exact h.symm

theorem x_right_neg (x : ℚ) : x_right (-x) = x_left x := by
  have h := x_left_neg (-x)
  rw [neg_neg] at h
  exact h.symm

theorem x_center_neg (x : ℚ) : x_center (-x) = x_center x := by
  have h := trapmf_neg (-20) 0 0 20 x (by norm_num) (by norm_num) (by norm_num)
  unfold x_center trimf
  rw [← h]
  norm_num

-- Characterization of the aggregation loop as plain sums.

theorem ruleStep_eq (acc : ℚ × ℚ) (r : ℚ × ℚ) (h : 0 ≤ r.1) :
    ruleStep acc r = (acc.1 + r.1 * r.2, acc.2 + r.1) := by
  unfold ruleStep
  split_ifs with h0
  · have hz : r.1 = 0 := le_antisymm h0 h
    rw [hz, zero_mul, add_zero, add_zero]
  · rfl

theorem foldl_ruleStep (l : List (ℚ × ℚ)) (h : ∀ r ∈ l, 0 ≤ r.1) (acc : ℚ × ℚ) :
    l.foldl ruleStep acc =
      (acc.1 + (l.map (fun r => r.1 * r.2)).sum, acc.2 + (l.map Prod.fst).sum) := by
  induction l generalizing acc with
  | nil => simp
  | cons r t ih =>
    simp only [List.foldl_cons, List.map_cons, List.sum_cons]
    rw [ruleStep_eq acc r (h r (List.mem_cons_self r t)),
      ih (fun s hs => h s (List.mem_cons_of_mem r hs))]
    exact Prod.ext (by ring) (by ring)

/-- The spec-side weighted numerator `Σ weight·consequent` over the nine rules
(in spec order), with no positivity filtering. -/
def num_of (V xe y : ℚ) : ℚ :=
  x_far_left xe * (-V) + x_far_right xe * V
    + min (x_left xe) (y_near y) * (-V) + min (x_right xe) (y_near y) * V
    + min (x_left xe) (y_mid y) * (-(9/10 * V)) + min (x_right xe) (y_mid y) * (9/10 * V)
    + min (x_left xe) (y_far y) * (-(7/10 * V)) + min (x_right xe) (y_far y) * (7/10 * V)
    + x_center xe * 0

/-- The spec-side weight sum `Σ weight` over the nine rules. -/
def den_of (xe y : ℚ) : ℚ :=
  x_far_left xe + x_far_right xe
    + min (x_left xe) (y_near y) + min (x_right xe) (y_near y)
    + min (x_left xe) (y_mid y) + min (x_right xe) (y_mid y)
    + min (x_left xe) (y_far y) + min (x_right xe) (y_far y)
    + x_center xe

theorem rule_list_weights_nonneg (V xe y : ℚ) :
    ∀ r ∈ rule_list V xe y, 0 ≤ r.1 := by
  intro r hr
  simp only [rule_list, List.mem_cons, List.not_mem_nil, or_false] at hr
  rcases hr with h | h | h | h | h | h | h | h | h <;> subst h
  · exact x_far_left_nonneg xe
  · exact x_far_right_nonneg xe
  · exact le_min (x_left_nonneg xe) (y_near_nonneg y)
  · exact le_min (x_right_nonneg xe) (y_near_nonneg y)
  · exact le_min (x_left_nonneg xe) (y_mid_nonneg y)
  · exact le_min (x_right_nonneg xe) (y_mid_nonneg y)
  · exact le_min (x_left_nonneg xe) (y_far_nonneg y)
  · exact le_min (x_right_nonneg xe) (y_far_nonneg y)
  · exact x_center_nonneg xe

/-- The aggregation of `_tsk_velocity` (before the cutoff) is exactly the
guarded weighted average of the nine rules' consequents. -/
theorem aggregateV_eq (V x y : ℚ) :
    aggregateV V x y =
      (if den_of (x - edge_shift y x) y ≤ 1/1000000000 then 0
       else num_of V (x - edge_shift y x) y / den_of (x - edge_shift y x) y) := by
  unfold aggregateV
  rw [foldl_ruleStep _ (rule_list_weights_nonneg V _ y) (0, 0)]
  simp only [rule_list, List.map_cons, List.map_nil, List.sum_cons, List.sum_nil]
  have hnum : (0:ℚ) + (x_far_left (x - edge_shift y x) * -V
      + (x_far_right (x - edge_shift y x) * V
      + (min (x_left (x - edge_shift y x)) (y_near y) * -V
      + (min (x_right (x - edge_shift y x)) (y_near y) * V
      + (min (x_left (x - edge_shift y x)) (y_mid y) * -(9 / 10 * V)
      + (min (x_right (x - edge_shift y x)) (y_mid y) * (9 / 10 * V)
      + (min (x_left (x - edge_shift y x)) (y_far y) * -(7 / 10 * V)
      + (min (x_right (x - edge_shift y x)) (y_far y) * (7 / 10 * V)
      + (x_center (x - edge_shift y x) * 0 + 0))))))))) =
      num_of V (x - edge_shift y x) y := by
    unfold num_of; ring
  have hden : (0:ℚ) + (x_far_left (x - edge_shift y x)
      + (x_far_right (x - edge_shift y x)
      + (min (x_left (x - edge_shift y x)) (y_near y)
      + (min (x_right (x - edge_shift y x)) (y_near y)
      + (min (x_left (x - edge_shift y x)) (y_mid y)
      + (min (x_right (x - edge_shift y x)) (y_mid y)
      + (min (x_left (x - edge_shift y x)) (y_far y)
      + (min (x_right (x - edge_shift y x)) (y_far y)
      + (x_center (x - edge_shift y x) + 0))))))))) =
      den_of (x - edge_shift y x) y := by
    unfold den_of; ring
  rw [hnum, hden]

/-- `_tsk_velocity` is the small-velocity cutoff applied to the aggregation
value. -/
theorem tsk_filter_eq (V x y : ℚ) :
    tsk_velocity V x y =
      (if |aggregateV V x y| < 1/10 then 0 else aggregateV V x y) := rfl

-- Edge shift: sign/magnitude characterization and oddness.

theorem edge_shift_eq (y dx : ℚ) :
    edge_shift y dx =
      (if dx < 0 then -1 else 1) *
        ((9/10 * y_near y + 2/5 * y_mid y + 1/20 * y_far y) * (1/4 * 80)) := by
  unfold edge_shift copysign
  have hs : 0 ≤ (9/10 * y_near y + 2/5 * y_mid y + 1/20 * y_far y) * (1/4 * 80) := by
    have hn := y_near_nonneg y
    have hm := y_mid_nonneg y
    have hf := y_far_nonneg y
    apply mul_nonneg
    · linarith
    · norm_num
  rw [abs_of_nonneg hs]
  split_ifs <;> ring

theorem edge_shift_neg (y dx : ℚ) (h : dx ≠ 0) :
    edge_shift y (-dx) = -edge_shift y dx := by
  rw [edge_shift_eq, edge_shift_eq]
  rcases h.lt_or_lt with h0 | h0
  · rw [if_pos h0, if_neg (by linarith : ¬(-dx < 0))]; ring
  · rw [if_neg (by linarith : ¬(dx < 0)), if_pos (by linarith : -dx < 0)]; ring

theorem num_of_neg (V xe y : ℚ) : num_of V (-xe) y = -num_of V xe y := by
  unfold num_of
  rw [x_far_left_neg, x_far_right_neg, x_left_neg, x_right_neg, x_center_neg]
  ring

theorem den_of_neg (xe y : ℚ) : den_of (-xe) y = den_of xe y := by
  unfold den_of
  rw [x_far_left_neg, x_far_right_neg, x_left_neg, x_right_neg, x_center_neg]
  ring

theorem aggregateV_neg (V x y : ℚ) (h : x ≠ 0) :
    aggregateV V (-x) y = -aggregateV V x y := by
  rw [aggregateV_eq, aggregateV_eq]
  have hxe : -x - edge_shift y (-x) = -(x - edge_shift y x) := by
    rw [edge_shift_neg y x h]; ring
  rw [hxe, num_of_neg, den_of_neg]
  by_cases hD : den_of (x - edge_shift y x) y ≤ 1/1000000000
  · rw [if_pos hD, if_pos hD, neg_zero]
  · rw [if_neg hD, if_neg hD, neg_div]

theorem tsk_velocity_neg (V x y : ℚ) (h : x ≠ 0) :
    tsk_velocity V (-x) y = -tsk_velocity V x y := by
  rw [tsk_filter_eq, tsk_filter_eq, aggregateV_neg V x y h, abs_neg]
  by_cases hs : |aggregateV V x y| < 1/10
  · rw [if_pos hs, if_pos hs, neg_zero]
  · rw [if_neg hs, if_neg hs]

-- Output magnitude bounds.

theorem abs_aggregateV_le (V x y : ℚ) (hV : 0 ≤ V) : |aggregateV V x y| ≤ V := by
  rw [aggregateV_eq]
  by_cases hD : den_of (x - edge_shift y x) y ≤ 1/1000000000
  · rw [if_pos hD, abs_zero]; exact hV
  · rw [if_neg hD]
    have hDpos : 0 < den_of (x - edge_shift y x) y := by
      have := not_le.mp hD; linarith
    rw [abs_div, abs_of_pos hDpos, div_le_iff hDpos]
    have h1 := x_far_left_nonneg (x - edge_shift y x)
    have h2 := x_far_right_nonneg (x - edge_shift y x)
    have h3 := le_min (x_left_nonneg (x - edge_shift y x)) (y_near_nonneg y)
    have h4 := le_min (x_right_nonneg (x - edge_shift y x)) (y_near_nonneg y)
    have h5 := le_min (x_left_nonneg (x - edge_shift y x)) (y_mid_nonneg y)
    have h6 := le_min (x_right_nonneg (x - edge_shift y x)) (y_mid_nonneg y)
    have h7 := le_min (x_left_nonneg (x - edge_shift y x)) (y_far_nonneg y)
    have h8 := le_min (x_right_nonneg (x - edge_shift y x)) (y_far_nonneg y)
    have h9 := x_center_nonneg (x - edge_shift y x)
    rw [abs_le]
    constructor
    · unfold num_of den_of
      nlinarith [mul_nonneg hV h1, mul_nonneg hV h2, mul_nonneg hV h3,
        mul_nonneg hV h4, mul_nonneg hV h5, mul_nonneg hV h6,
        mul_nonneg hV h7, mul_nonneg hV h8, mul_nonneg hV h9]
    · unfold num_of den_of
      nlinarith [mul_nonneg hV h1, mul_nonneg hV h2, mul_nonneg hV h3,
        mul_nonneg hV h4, mul_nonneg hV h5, mul_nonneg hV h6,
        mul_nonneg hV h7, mul_nonneg hV h8, mul_nonneg hV h9]

theorem abs_tsk_velocity_le (V x y : ℚ) (hV : 0 ≤ V) : |tsk_velocity V x y| ≤ V := by
  rw [tsk_filter_eq]
  by_cases hs : |aggregateV V x y| < 1/10
  · rw [if_pos hs, abs_zero]; exact hV
  · rw [if_neg hs]; exact abs_aggregateV_le V x y hV

-- Clamp facts used by the boost path.

theorem abs_clamp_le (V x : ℚ) (hV : 0 ≤ V) : |max (-V) (min V x)| ≤ V := by
  rw [abs_le]
  exact ⟨le_max_left _ _, max_le (by linarith) (min_le_left _ _)⟩

theorem clamp_neg (V x : ℚ) (hV : 0 ≤ V) :
    max (-V) (min V (-x)) = -max (-V) (min V x) := by
  simp only [min_def, max_def]
  split_ifs <;> linarith

theorem abs_le_abs_clamp_boost (V x : ℚ) (hV : 0 < V) (hx : |x| ≤ V) :
    |x| ≤ |max (-V) (min V (x * boost_gain))| := by
  rw [abs_le] at hx
  unfold boost_gain
  rcases le_total 0 x with h0 | h0
  · have hm : x ≤ min V (x * (11/10)) := le_min hx.2 (by linarith)
    have hc : x ≤ max (-V) (min V (x * (11/10))) :=
      le_trans hm (le_max_right _ _)
    calc |x| = x := abs_of_nonneg h0
    _ ≤ max (-V) (min V (x * (11/10))) := hc
    _ ≤ |max (-V) (min V (x * (11/10)))| := le_abs_self _
  · have hm : min V (x * (11/10)) ≤ x :=
      le_trans (min_le_right _ _) (by linarith)
    have hc : max (-V) (min V (x * (11/10))) ≤ x := max_le (by linarith [hx.1]) hm
    calc |x| = -x := abs_of_nonpos h0
    _ ≤ -max (-V) (min V (x * (11/10))) := by linarith
    _ ≤ |max (-V) (min V (x * (11/10)))| := neg_le_abs _

-- Support bounds of the horizontal labels, and the overlap bound.

theorem x_center_zero_left (x : ℚ) (h : x ≤ -20) : x_center x = 0 :=
  trapmf_zero_left (-20) 0 0 20 x (by norm_num) h

theorem x_center_zero_right (x : ℚ) (h : 20 ≤ x) : x_center x = 0 :=
  trapmf_zero_right (-20) 0 0 20 x (by norm_num) (by norm_num) (by norm_num) h

theorem x_left_zero_left (x : ℚ) (h : x ≤ 14) : x_left x = 0 :=
  trapmf_zero_left 14 36 36 72 x (by norm_num) h

theorem x_far_left_zero_left (x : ℚ) (h : x ≤ 56) : x_far_left x = 0 :=
  trapmf_zero_left 56 88 400 400 x (by norm_num) h

theorem x_far_right_zero_right (x : ℚ) (h : -56 ≤ x) : x_far_right x = 0 :=
  trapmf_zero_right (-400) (-400) (-88) (-56) x (by norm_num) (by norm_num) (by norm_num) h

theorem x_right_zero_right (x : ℚ) (h : -14 ≤ x) : x_right x = 0 :=
  trapmf_zero_right (-72) (-36) (-36) (-14) x (by norm_num) (by norm_num) (by norm_num) h

/-- At any point at most two adjacent horizontal labels are active, so the
membership sum never exceeds 2. -/
theorem x_mf_sum_le_two (x : ℚ) : x_mf_sum x ≤ 2 := by
  unfold x_mf_sum
  have bFR : x_far_right x ≤ 1 := trapmf_le_one _ _ _ _ _
  have bR : x_right x ≤ 1 := trapmf_le_one _ _ _ _ _
  have bC : x_center x ≤ 1 := trapmf_le_one _ _ _ _ _
  have bL : x_left x ≤ 1 := trapmf_le_one _ _ _ _ _
  have bFL : x_far_left x ≤ 1 := trapmf_le_one _ _ _ _ _
  rcases le_total x (-20) with hA | hA
  · rw [x_center_zero_left x hA, x_left_zero_left x (by linarith),
      x_far_left_zero_left x (by linarith)]
    linarith
  · rcases le_total x 14 with hB | hB
    · rw [x_far_right_zero_right x (by linarith), x_left_zero_left x hB,
        x_far_left_zero_left x (by linarith)]
      linarith
    · rcases le_total x 20 with hC | hC
      · rw [x_far_right_zero_right x (by linarith), x_right_zero_right x (by linarith),
          x_far_left_zero_left x (by linarith)]
        linarith
      · rw [x_far_right_zero_right x (by linarith), x_right_zero_right x (by linarith),
          x_center_zero_right x hC]
        linarith

theorem x_mf_sum_nonneg (x : ℚ) : 0 ≤ x_mf_sum x := by
  unfold x_mf_sum
  have nFR := x_far_right_nonneg x
  have nR := x_right_nonneg x
  have nC := x_center_nonneg x
  have nL := x_left_nonneg x
  have nFL := x_far_left_nonneg x
  linarith

-- Concrete evaluations of the inference pipeline used by the C1 analysis.

theorem eval_aggregateV_small : aggregateV (1/20) 50 10 = -(1/20) := by
  norm_num [aggregateV, rule_list, ruleStep, edge_shift, copysign,
    x_far_right, x_right, x_center, x_left, x_far_left, y_near, y_mid, y_far,
    trimf, trapmf, min_def, abs]

theorem eval_tsk_small : tsk_velocity (1/20) 50 10 = 0 := by
  norm_num [tsk_velocity, tsk_core, rule_list, ruleStep, edge_shift, copysign,
    x_far_right, x_right, x_center, x_left, x_far_left, y_near, y_mid, y_far,
    trimf, trapmf, cutoff_v, min_def, abs]

theorem eval_aggregateV_one : aggregateV 1 50 10 = -1 := by
  norm_num [aggregateV, rule_list, ruleStep, edge_shift, copysign,
    x_far_right, x_right, x_center, x_left, x_far_left, y_near, y_mid, y_far,
    trimf, trapmf, min_def, abs]

theorem eval_tsk_one : tsk_velocity 1 50 10 = -1 := by
  norm_num [tsk_velocity, tsk_core, rule_list, ruleStep, edge_shift, copysign,
    x_far_right, x_right, x_center, x_left, x_far_left, y_near, y_mid, y_far,
    trimf, trapmf, cutoff_v, min_def, abs]

/-- Claim C1, counterexample: the post-aggregation snap-to-zero cutoff is NOT
a fixed fraction of the max speed uniformly in `Vmax`.  There is no fraction
`f > 0` such that for every `Vmax > 0` and every input, the final velocity is
the aggregation value snapped to `0` exactly when its magnitude is below
`f · Vmax`: the code compares against the absolute constant `0.10`. -/
theorem claim_C1_counterexample :
    ¬ ∃ f : ℚ, 0 < f ∧ ∀ V : ℚ, 0 < V → ∀ dx dy : ℚ, dead_x ≤ |dx| →
      tsk_velocity V dx dy =
        (if |aggregateV V dx dy| < f * V then 0 else aggregateV V dx dy) := by
  rintro ⟨f, hf, h⟩
  have hin : dead_x ≤ |(50:ℚ)| := by norm_num [dead_x, abs, max_def]
  by_cases hf1 : f ≤ 1
  · have h1 := h (1/20) (by norm_num) 50 10 hin
    rw [eval_aggregateV_small, eval_tsk_small, if_neg] at h1
    · exact absurd h1 (by norm_num)
    · rw [abs_neg, abs_of_pos (by norm_num : (0:ℚ) < 1/20)]
      intro hlt
      nlinarith
  · push_neg at hf1
    have h1 := h 1 one_pos 50 10 hin
    rw [eval_aggregateV_one, eval_tsk_one, if_pos] at h1
    · exact absurd h1 (by norm_num)
    · rw [abs_neg, abs_one, mul_one]
      exact hf1

/-- Claim C1 (amended): after rule aggregation, if the resulting velocity's
magnitude is below the fixed absolute cutoff `0.10` (`cutoff_v`, which is not
scaled by `Vmax`; it equals `0.01 · Vmax` only at the default `Vmax = 10`),
the velocity is snapped to exactly `0`; otherwise it is left unchanged.  This
holds for every input `(dx, dy)` and every `Vmax`. -/
theorem claim_C1_amended (V dx dy : ℚ) :
    tsk_velocity V dx dy =
      (if |aggregateV V dx dy| < cutoff_v then 0 else aggregateV V dx dy) :=
  tsk_filter_eq V dx dy

/-- Claim C2, counterexample: at `x = -30`, well inside the horizontal
universe `[-400, 400]`, the five horizontal membership degrees sum to
`8/11 < 1`, violating the claimed `[1, 2]` overlap guarantee. -/
theorem claim_C2_counterexample :
    (-400 : ℚ) ≤ -30 ∧ (-30 : ℚ) ≤ 400 ∧ x_mf_sum (-30) < 1 := by
  refine ⟨by norm_num, by norm_num, ?_⟩
  have hs : x_mf_sum (-30) = 8/11 := by
    norm_num [x_mf_sum, x_far_right, x_right, x_center, x_left, x_far_left, trimf, trapmf]
  rw [hs]
  norm_num

/-- Claim C2 (amended): for every `x` in the horizontal universe
`[-400, 400]`, each of the five horizontal membership degrees lies in
`[0, 1]`, and their sum lies in `[0, 2]` (the claimed lower bound `1` fails:
the label supports leave gaps, see the counterexample). -/
theorem claim_C2_amended (x : ℚ) (h1 : -400 ≤ x) (h2 : x ≤ 400) :
    (0 ≤ x_far_right x ∧ x_far_right x ≤ 1) ∧
    (0 ≤ x_right x ∧ x_right x ≤ 1) ∧
    (0 ≤ x_center x ∧ x_center x ≤ 1) ∧
    (0 ≤ x_left x ∧ x_left x ≤ 1) ∧
    (0 ≤ x_far_left x ∧ x_far_left x ≤ 1) ∧
    0 ≤ x_mf_sum x ∧ x_mf_sum x ≤ 2 :=
  ⟨⟨x_far_right_nonneg x, trapmf_le_one _ _ _ _ _⟩,
   ⟨x_right_nonneg x, trapmf_le_one _ _ _ _ _⟩,
   ⟨x_center_nonneg x, trapmf_le_one _ _ _ _ _⟩,
   ⟨x_left_nonneg x, trapmf_le_one _ _ _ _ _⟩,
   ⟨x_far_left_nonneg x, trapmf_le_one _ _ _ _ _⟩,
   x_mf_sum_nonneg x, x_mf_sum_le_two x⟩

/-- Witness for the amended C2 at `x = 0`. -/
theorem claim_C2_witness :
    ((-400 : ℚ) ≤ 0 ∧ (0 : ℚ) ≤ 400) ∧
    ((0 ≤ x_far_right 0 ∧ x_far_right 0 ≤ 1) ∧
     (0 ≤ x_right 0 ∧ x_right 0 ≤ 1) ∧
     (0 ≤ x_center 0 ∧ x_center 0 ≤ 1) ∧
     (0 ≤ x_left 0 ∧ x_left 0 ≤ 1) ∧
     (0 ≤ x_far_left 0 ∧ x_far_left 0 ≤ 1) ∧
     0 ≤ x_mf_sum 0 ∧ x_mf_sum 0 ≤ 2) :=
  ⟨⟨by norm_num, by norm_num⟩, claim_C2_amended 0 (by norm_num) (by norm_num)⟩

/-- Claim C3: for every max speed `V`, horizontal value and raw `|dy|`, the
inference engine's crisp output equals the weighted average
`Σ(weight · consequent) / Σ(weight)` over exactly the nine rules (consequent
constants `±1.0, ±0.9, ±0.7` times `V` and `0` for stop), evaluated at the
corrected offset, and is `0` whenever the total weight is at most the guard
epsilon `1e-9` (no division is performed in that case). -/
theorem claim_C3_aggregation (V x y_abs : ℚ) :
    aggregateV V x y_abs =
      (if den_of (x - edge_shift y_abs x) y_abs ≤ 1/1000000000 then 0
       else num_of V (x - edge_shift y_abs x) y_abs
         / den_of (x - edge_shift y_abs x) y_abs) :=
  aggregateV_eq V x y_abs

/-- Claim C4: for every nonzero raw horizontal offset `dx` (nonzero holds on
every input reaching inference, where `|dx| ≥ dead_x`) and every `dy`, the
edge-shift correction has magnitude `w · 0.25 · paddle_width` with
`w = 0.9·near + 0.4·mid + 0.05·far` of `|dy|`, carries the sign of `dx`, and
inference runs on `dx` minus this signed correction. -/
theorem claim_C4_edge_shift (V dx dy : ℚ) (h : dx ≠ 0) :
    edge_shift |dy| dx =
      (if dx < 0 then -1 else 1) *
        ((9/10 * y_near |dy| + 2/5 * y_mid |dy| + 1/20 * y_far |dy|) * (1/4 * 80)) ∧
    tsk_velocity V dx |dy| = tsk_core V (dx - edge_shift |dy| dx) |dy| :=
  ⟨edge_shift_eq |dy| dx, rfl⟩

/-- Witness for C4 at `V = 10`, `dx = 50`, `dy = 10`. -/
theorem claim_C4_witness :
    (50 : ℚ) ≠ 0 ∧
    (edge_shift |(10:ℚ)| 50 =
      (if (50:ℚ) < 0 then -1 else 1) *
        ((9/10 * y_near |(10:ℚ)| + 2/5 * y_mid |(10:ℚ)| + 1/20 * y_far |(10:ℚ)|) * (1/4 * 80)) ∧
     tsk_velocity 10 50 |(10:ℚ)| = tsk_core 10 (50 - edge_shift |(10:ℚ)| 50) |(10:ℚ)|) :=
  ⟨by norm_num, claim_C4_edge_shift 10 50 10 (by norm_num)⟩

/-- Claim C5: whenever `|dx|` is below the dead-zone threshold, `act`
produces velocity exactly `0` (for every `dy`, every stored previous `|dy|`
and every `Vmax`), and the emitted move command targets the paddle's current
x-position. -/
theorem claim_C5_dead_zone (V px : ℚ) (prev : Option ℚ) (dx dy : ℚ)
    (h : |dx| < dead_x) :
    (act V prev dx dy).1 = 0 ∧ move_target px (act V prev dx dy).1 = px := by
  have hv : (act V prev dx dy).1 = 0 := by
    cases prev with
    | none =>
      simp only [act, if_pos h]
    | some p =>
      simp only [act, if_pos h]
      rw [if_neg]
      simp
  refine ⟨hv, ?_⟩
  unfold move_target
  rw [hv, add_zero]

/-- Witness for C5 at `V = 10`, `px = 3`, fresh state, `dx = 1/2`, `dy = 50`. -/
theorem claim_C5_witness :
    |(1/2 : ℚ)| < dead_x ∧
    ((act 10 none (1/2) 50).1 = 0 ∧ move_target 3 (act 10 none (1/2) 50).1 = 3) :=
  ⟨by norm_num [dead_x, abs, max_def],
   claim_C5_dead_zone 10 3 none (1/2) 50 (by norm_num [dead_x, abs, max_def])⟩

theorem act_snd (V : ℚ) (prev : Option ℚ) (dx dy : ℚ) :
    (act V prev dx dy).2 = some |dy| := by
  cases prev <;> rfl

/-- Claim C6: with a stored previous `|dy|`, the velocity is scaled by the
fixed boost gain (`boost_gain > 1`) and clamped to `[-V, V]` exactly when the
computed velocity is nonzero, `|dx|` is at least the dead-zone threshold, and
the current `|dy|` undercuts the previous one by more than `0.001`; otherwise
it is unchanged.  Consequently, for two consecutive calls with `|dy|`
decreasing by more than the epsilon and the same `dx` beyond the dead-zone,
the second call's velocity magnitude is at least the unboosted value for that
input and at most `V`. -/
theorem claim_C6_boost (V p dx dy dy1 dy2 : ℚ) (prev0 : Option ℚ) (hV : 0 < V) :
    1 < boost_gain ∧
    ((if |dx| < dead_x then (0:ℚ) else tsk_velocity V dx |dy|) ≠ 0 ∧
        dead_x ≤ |dx| ∧ |dy| < p - 1/1000 →
      (act V (some p) dx dy).1 =
        max (-V) (min V
          ((if |dx| < dead_x then (0:ℚ) else tsk_velocity V dx |dy|) * boost_gain))) ∧
    (¬((if |dx| < dead_x then (0:ℚ) else tsk_velocity V dx |dy|) ≠ 0 ∧
        dead_x ≤ |dx| ∧ |dy| < p - 1/1000) →
      (act V (some p) dx dy).1 =
        (if |dx| < dead_x then (0:ℚ) else tsk_velocity V dx |dy|)) ∧
    (dead_x ≤ |dx| → |dy2| < |dy1| - 1/1000 →
      |tsk_velocity V dx (|dy2|)| ≤ |(act V ((act V prev0 dx dy1).2) dx dy2).1| ∧
      |(act V ((act V prev0 dx dy1).2) dx dy2).1| ≤ V) := by
  refine ⟨by norm_num [boost_gain], ?_, ?_, ?_⟩
  · intro hc
    simp only [act]
    rw [if_pos hc]
  · intro hc
    simp only [act]
    rw [if_neg hc]
  · intro hdx hdec
    rw [act_snd]
    simp only [act, if_neg (not_lt.mpr hdx)]
    by_cases hv0 : tsk_velocity V dx |dy2| = 0
    · rw [if_neg (by simp [hv0])]
      rw [hv0, abs_zero]
      exact ⟨le_refl 0, le_of_lt hV⟩
    · rw [if_pos ⟨hv0, hdx, hdec⟩]
      exact ⟨abs_le_abs_clamp_boost V _ hV (abs_tsk_velocity_le V dx |dy2| (le_of_lt hV)),
        abs_clamp_le V _ (le_of_lt hV)⟩

/-- Witness for C6 at `V = 10`, `p = 20`, `dx = 50`, `dy = 10`, two calls
with `dy1 = 20`, `dy2 = 10`, from the fresh state. -/
theorem claim_C6_witness :
    (0:ℚ) < 10 ∧
    (1 < boost_gain ∧
     ((if |(50:ℚ)| < dead_x then (0:ℚ) else tsk_velocity 10 50 |(10:ℚ)|) ≠ 0 ∧
         dead_x ≤ |(50:ℚ)| ∧ |(10:ℚ)| < 20 - 1/1000 →
       (act 10 (some 20) 50 10).1 =
         max (-10) (min 10
           ((if |(50:ℚ)| < dead_x then (0:ℚ) else tsk_velocity 10 50 |(10:ℚ)|) * boost_gain))) ∧
     (¬((if |(50:ℚ)| < dead_x then (0:ℚ) else tsk_velocity 10 50 |(10:ℚ)|) ≠ 0 ∧
         dead_x ≤ |(50:ℚ)| ∧ |(10:ℚ)| < 20 - 1/1000) →
       (act 10 (some 20) 50 10).1 =
         (if |(50:ℚ)| < dead_x then (0:ℚ) else tsk_velocity 10 50 |(10:ℚ)|)) ∧
     (dead_x ≤ |(50:ℚ)| → |(10:ℚ)| < |(20:ℚ)| - 1/1000 →
       |tsk_velocity 10 50 (|(10:ℚ)|)| ≤ |(act 10 ((act 10 none 50 20).2) 50 10).1| ∧
       |(act 10 ((act 10 none 50 20).2) 50 10).1| ≤ 10)) :=
  ⟨by norm_num, claim_C6_boost 10 20 50 10 20 10 none (by norm_num)⟩

/-- Claim C7: for every nonnegative max speed, every stored state and every
input, `act` is odd in `dx`: mirroring the horizontal offset flips the sign
of the produced velocity and preserves its magnitude. -/
theorem claim_C7_symmetry (V : ℚ) (hV : 0 ≤ V) (prev : Option ℚ) (dx dy : ℚ) :
    (act V prev (-dx) dy).1 = -(act V prev dx dy).1 := by
  have habs : |(-dx)| = |dx| := abs_neg dx
  cases prev with
  | none =>
    simp only [act, habs]
    by_cases hd : |dx| < dead_x
    · rw [if_pos hd, if_pos hd, neg_zero]
    · have hdx0 : dx ≠ 0 := by
        intro h0
        rw [h0] at hd
        exact hd (by norm_num [dead_x])
      rw [if_neg hd, if_neg hd, tsk_velocity_neg V dx |dy| hdx0]
  | some p =>
    simp only [act, habs]
    by_cases hd : |dx| < dead_x
    · simp only [if_pos hd]
      norm_num
    · have hdx0 : dx ≠ 0 := by
        intro h0
        rw [h0] at hd
        exact hd (by norm_num [dead_x])
      simp only [if_neg hd]
      rw [tsk_velocity_neg V dx |dy| hdx0]
      by_cases hc : tsk_velocity V dx |dy| ≠ 0 ∧ dead_x ≤ |dx| ∧ |dy| < p - 1/1000
      · have hc2 : -tsk_velocity V dx |dy| ≠ 0 ∧ dead_x ≤ |dx| ∧ |dy| < p - 1/1000 :=
          ⟨neg_ne_zero.mpr hc.1, hc.2⟩
        rw [if_pos hc2, if_pos hc,
          show -tsk_velocity V dx |dy| * boost_gain
            = -(tsk_velocity V dx |dy| * boost_gain) by ring]
        exact clamp_neg V _ hV
      · have hc2 : ¬(-tsk_velocity V dx |dy| ≠ 0 ∧ dead_x ≤ |dx| ∧ |dy| < p - 1/1000) := by
          intro hcc
          exact hc ⟨fun hz => hcc.1 (by rw [hz, neg_zero]), hcc.2⟩
        rw [if_neg hc2, if_neg hc]

/-- Witness for C7 at `V = 10`, previous `|dy| = 20`, `dx = 50`, `dy = 10`. -/
theorem claim_C7_witness :
    (0:ℚ) ≤ 10 ∧ (act 10 (some 20) (-50) 10).1 = -(act 10 (some 20) 50 10).1 :=
  ⟨by norm_num, claim_C7_symmetry 10 (by norm_num) (some 20) 50 10⟩

/-- Claim C8: with the program's construction (board 800 x 400, paddle width
80, `Vmax = 10`) and a fresh controller state: `act(0.5, 50)` yields velocity
`0` (dead zone); `act(50, 10)` yields exactly `-10` (full-speed toward the
ball per the sign convention); `act(5, 300)` yields a velocity of magnitude
strictly below `0.8 · Vmax = 8`. -/
theorem claim_C8_scenario :
    (act 10 none (1/2) 50).1 = 0 ∧
    (act 10 none 50 10).1 = -10 ∧
    |(act 10 none 5 300).1| < 8 := by
  refine ⟨?_, ?_, ?_⟩ <;>
    norm_num [act, dead_x, tsk_velocity, tsk_core, rule_list, ruleStep,
      edge_shift, copysign, x_far_right, x_right, x_center, x_left, x_far_left,
      y_near, y_mid, y_far, trimf, trapmf, cutoff_v, min_def, max_def, abs]

/-- Claim C9: the controller is deterministic — equal max speed and equal
input sequences produce equal output velocity sequences from the freshly
constructed state (the embedding is a pure function of the construction
parameter and the input history; the source has no other state and no
randomness). -/
theorem claim_C9_determinism (V W : ℚ) (ins1 ins2 : List (ℚ × ℚ))
    (h1 : V = W) (h2 : ins1 = ins2) :
    runController V ins1 = runController W ins2 := by
  rw [h1, h2]

/-- Witness for C9 on the single-input sequence `[(50, 10)]`. -/
theorem claim_C9_witness :
    (10:ℚ) = 10 ∧ [((50:ℚ), (10:ℚ))] = [((50:ℚ), (10:ℚ))] ∧
    runController 10 [(50, 10)] = runController 10 [(50, 10)] :=
  ⟨rfl, rfl, claim_C9_determinism 10 10 [(50, 10)] [(50, 10)] rfl rfl⟩

/-- Claim C10: for every positive max speed `V`, every controller state and
every input, the displacement the move command adds to the paddle's
x-position (the emitted velocity) has magnitude at most `V`: the aggregation
output is a weighted average of consequents bounded by `V`, and the boost
path clamps to `[-V, V]`. -/
theorem claim_C10_bounded (V px : ℚ) (prev : Option ℚ) (dx dy : ℚ) (hV : 0 < V) :
    |move_target px (act V prev dx dy).1 - px| ≤ V := by
  have hb : |(act V prev dx dy).1| ≤ V := by
    cases prev with
    | none =>
      simp only [act]
      by_cases hd : |dx| < dead_x
      · rw [if_pos hd, abs_zero]
        exact le_of_lt hV
      · rw [if_neg hd]
        exact abs_tsk_velocity_le V dx |dy| (le_of_lt hV)
    | some p =>
      simp only [act]
      by_cases hc : (if |dx| < dead_x then (0:ℚ) else tsk_velocity V dx |dy|) ≠ 0 ∧
          dead_x ≤ |dx| ∧ |dy| < p - 1/1000
      · rw [if_pos hc]
        exact abs_clamp_le V _ (le_of_lt hV)
      · rw [if_neg hc]
        by_cases hd : |dx| < dead_x
        · rw [if_pos hd, abs_zero]
          exact le_of_lt hV
        · rw [if_neg hd]
          exact abs_tsk_velocity_le V dx |dy| (le_of_lt hV)
  have hm : move_target px (act V prev dx dy).1 - px = (act V prev dx dy).1 := by
    unfold move_target
    ring
  rw [hm]
  exact hb

/-- Witness for C10 at `V = 10`, `px = 0`, fresh state, `dx = 50`, `dy = 10`. -/
theorem claim_C10_witness :
    (0:ℚ) < 10 ∧ |move_target 0 (act 10 none 50 10).1 - 0| ≤ 10 :=
  ⟨by norm_num, claim_C10_bounded 10 0 none 50 10 (by norm_num)⟩
